import Mathlib

/-
Verification of the qreader pipeline (src/qreader.go) against its
natural-language specification.

The Go source is shallowly embedded below.  Bytes are modelled as `Nat`
(newline = 10, tab = 9, octothorpe = 35), Go strings and byte slices as
`List Nat`, Go `map[string]int64` as an association list `List (Key × Int)`
iterated in representation order (a Go map iterates in an arbitrary order;
all operations proved here are insensitive to that order except where a
theorem explicitly exhibits one admissible order), and a Go `panic` /
`log.Fatalln` as `Option` / `Except Unit` failure.
-/

/-- One result of a call to `reader.Read(buffer)` in `Reader.Start`
(src/qreader.go lines 104-109): either `n` bytes were delivered with no
error (or with `io.EOF`, which the code treats the same), or a non-EOF
error occurred, which the code turns into `Error.Fatalln`. -/
inductive ReadResult where
  | ok (bytes : List Nat)
  | fail
deriving DecidableEq, Repr

/-- The backwards scan of `Reader.Start` (lines 117-131): starting at
`end_it = length - 1` it walks down; reaching index 0 takes the
append-everything branch (returning `none`) *before* testing the byte at
index 0, otherwise it stops at the highest index holding a newline. -/
def scanBack (buffer : List Nat) : Nat → Option Nat
  | 0 => none
  | i + 1 => if buffer.getD (i + 1) 0 = 10 then some (i + 1) else scanBack buffer i

/-- The read loop of `Reader.Start` (lines 103-132) over an explicit list of
read results.  `buffer := make([]byte, bsize)` is zero-filled, so the block
is padded with zeros up to `bsize`; the code appends `buffer...` (the whole
buffer) resp. `buffer[end_it+1:]` without truncating at the read length,
which the padding reproduces faithfully.  A non-EOF read error is
`Error.Fatalln` (`Except.error`).  When the loop breaks, the channel is
closed without flushing `leftovers`. -/
def readerCore (bsize : Nat) : List ReadResult → List Nat → Except Unit (List (List Nat))
  | [], _ => Except.ok []
  | ReadResult.fail :: _, _ => Except.error ()
  | ReadResult.ok bytes :: rest, leftovers =>
    let length := min bytes.length bsize
    if length = 0 then Except.ok []
    else
      let buffer := bytes.take bsize ++ List.replicate (bsize - length) 0
      match scanBack buffer (length - 1) with
      | none => readerCore bsize rest (leftovers ++ buffer)
      | some i =>
        match readerCore bsize rest (buffer.drop (i + 1)) with
        | Except.error e => Except.error e
        | Except.ok out => Except.ok ((leftovers ++ buffer.take i) :: out)

/-- Fuelled worker for `chop`; the fuel only makes the recursion structural
and is always called with at least `l.length`. -/
def chopGo (bsize : Nat) : Nat → List Nat → List (List Nat)
  | 0, _ => []
  | _, [] => []
  | fuel + 1, l =>
    if bsize = 0 then [] else l.take bsize :: chopGo bsize fuel (l.drop bsize)

/-- Deterministic full-block read schedule: an uncompressed regular file of
content `l` read with `Read(buffer)`, `len(buffer) = bsize`, delivers
`min bsize remaining` bytes per call until exhausted. -/
def chop (bsize : Nat) (l : List Nat) : List (List Nat) :=
  chopGo bsize l.length l

/-- The sequence of RawChunks `Reader.Start` sends on its output queue when
the byte source `input` is read in full blocks of size `bsize`. -/
def readerRun (bsize : Nat) (input : List Nat) : List (List Nat) :=
  ((readerCore bsize ((chop bsize input).map ReadResult.ok) []).toOption).getD []

/-- Go `strconv.Atoi` as used in `Parser.Parse` (lines 166-167): the error
return is discarded, so a malformed number contributes the zero value and an
out-of-range number contributes the clamped 64-bit bound that `ParseInt`
returns alongside `ErrRange`. -/
def goAtoi (s : List Nat) : Int :=
  let digits : List Nat → Bool := fun ds => !ds.isEmpty && ds.all (fun c => 48 ≤ c && c ≤ 57)
  let core : List Nat → Int → Int := fun ds sign =>
    if digits ds then
      let v : Int := sign * (ds.foldl (fun a c => a * 10 + (c - 48)) 0 : Nat)
      if v > 9223372036854775807 then 9223372036854775807
      else if v < -9223372036854775808 then -9223372036854775808
      else v
    else 0
  match s with
  | [] => 0
  | c :: rest =>
    if c = 43 then core rest 1
    else if c = 45 then core rest (-1)
    else core s 1

/-- The `conn` struct of src/qreader.go lines 143-147. -/
structure conn where
  orig : List Nat
  resp : List Nat
  bytes : Int
deriving DecidableEq, Repr

/-- One iteration of the parse loop body (lines 159-169) on one line:
`none` is a runtime panic (`line[0]` on an empty line, or `data[2]`,
`data[4]`, `data[16]`, `data[18]` on a line of fewer than 19 tab-separated
fields), `some none` is the `continue` taken for a comment line, and
`some (some c)` is an appended record. -/
def parseLine (line : List Nat) : Option (Option conn) :=
  match line with
  | [] => none
  | b :: _ =>
    if b = 35 then some none
    else
      let data := line.splitOn 9
      if data.length < 19 then none
      else
        some (some ⟨data.getD 2 [], data.getD 4 [],
          goAtoi (data.getD 16 []) + goAtoi (data.getD 18 [])⟩)

/-- `Parser.Parse` (lines 155-173): splits the chunk on newlines, allocates
`data_slice := make([]conn, len(lines))` — a slice already holding
`len(lines)` zero-value records — and then *appends* each parsed record
after them.  Returns `none` when any line makes the goroutine panic. -/
def Parse (fileslice : List Nat) : Option (List conn) :=
  let lines := fileslice.splitOn 10
  let init : List conn := List.replicate lines.length ⟨[], [], 0⟩
  lines.foldlM
    (fun acc line =>
      match parseLine line with
      | none => none
      | some none => some acc
      | some (some c) => some (acc ++ [c])) init

/-- Keys of the tally maps: Go strings, i.e. byte lists. -/
abbrev Key := List Nat

/-- Go `map[string]int64`, as an association list whose keys are distinct;
the list order stands for one admissible (arbitrary) Go map iteration
order. -/
abbrev GoMap := List (Key × Int)

/-- Go map read `m[k]`, `ok` variant: `none` when the key is absent. -/
def mapGet (m : GoMap) (k : Key) : Option Int :=
  match m with
  | [] => none
  | (k', v) :: rest => if k' = k then some v else mapGet rest k

/-- Go map read `m[k]` in value position: the zero value when absent. -/
def mapGetD (m : GoMap) (k : Key) : Int :=
  (mapGet m k).getD 0

/-- Go map update `m[k] += v` (inserts `k` with value `v` when absent). -/
def mapIncr (m : GoMap) (k : Key) (v : Int) : GoMap :=
  match m with
  | [] => [(k, v)]
  | (k', v') :: rest =>
    if k' = k then (k', v' + v) :: rest else (k', v') :: mapIncr rest k v

/-- The hardcoded address filter of `Reducer.Reduce` (lines 209 and 213):
the byte string of the literal "128.252.". -/
def localNet : List Nat := [49, 50, 56, 46, 50, 53, 50, 46]

/-- `strings.HasPrefix(s, "128.252.")` as used in `Reducer.Reduce`. -/
def matchesLocalNet (s : List Nat) : Bool := localNet.isPrefixOf s

/-- The body of the record loop of `Reducer.Reduce` (lines 204-216) for one
record: `tt[orig] += int64(b)` when the origin matches the filter, then
`tt[resp] += int64(b)` when the responder matches. -/
def reduceStep (tt : GoMap) (c : conn) : GoMap :=
  let tt1 := if matchesLocalNet c.orig then mapIncr tt c.orig c.bytes else tt
  if matchesLocalNet c.resp then mapIncr tt1 c.resp c.bytes else tt1

/-- `Reducer.Reduce` (lines 201-220): folds one record batch into a fresh
PartialTally, adding the record's full byte count under the origin address
and, independently, under the responder address, each exactly when that
address carries the hardcoded "128.252." filter string. -/
def Reduce (data_slice : List conn) : GoMap :=
  data_slice.foldl reduceStep []

/-- The merge loop of `Combiner.Start` (lines 250-256) applied to one
incoming PartialTally: `final[ip] += bytecount` for every pair of the
subresult, iterated in representation order. -/
def combinerMerge (final subresult : GoMap) : GoMap :=
  subresult.foldl (fun f kv => mapIncr f kv.1 kv.2) final

/-- `Combiner.Start`'s GlobalTally after consuming the listed PartialTallies
in arrival order, starting from the empty `final` map (line 248). -/
def combinerRun (partials : List GoMap) : GoMap :=
  partials.foldl combinerMerge []

/-- Read of the `swapped` map of `Combiner.Report` (`map[int64][]string`). -/
def swappedGet (sw : List (Int × List Key)) (v : Int) : Option (List Key) :=
  match sw with
  | [] => none
  | (v', l) :: rest => if v' = v then some l else swappedGet rest v

/-- One iteration of the first loop of `Combiner.Report` (lines 274-284) on
the `swapped` map: when the value is already present the code computes
`list = append(list, k)` and *discards* the result, so only the first key
seen for each value is ever recorded. -/
def swappedInsert (sw : List (Int × List Key)) (v : Int) (k : Key) : List (Int × List Key) :=
  match swappedGet sw v with
  | some _ => sw
  | none => sw ++ [(v, [k])]

/-- The `swapped` map built by the first loop of `Combiner.Report`,
iterating the GlobalTally in representation order. -/
def buildSwapped (tt : GoMap) : List (Int × List Key) :=
  tt.foldl (fun sw kv => swappedInsert sw kv.2 kv.1) []

/-- The `keys` slice of `Combiner.Report`: `make([]int64, len(tt))` starts
it with `len(tt)` zero values (line 270) and the loop appends every tally
value after them (line 282). -/
def buildKeys (tt : GoMap) : List Int :=
  List.replicate tt.length 0 ++ tt.map Prod.snd

/-- The grand total `tbytes` accumulated by the first loop of
`Combiner.Report` (line 283). -/
def tbytesOf (tt : GoMap) : Int :=
  (tt.map Prod.snd).sum

/-- Descending insertion step for `sortDesc`. -/
def insertDesc (x : Int) : List Int → List Int
  | [] => [x]
  | y :: ys => if y ≤ x then x :: y :: ys else y :: insertDesc x ys

/-- `sort.Sort(sort.Reverse(...))` on an `[]int64` (lines 287-289).  Go's
sort is unstable, but on a list of plain integers every descending
arrangement is the same list, so any correct sorting algorithm embeds it. -/
def sortDesc (l : List Int) : List Int :=
  l.foldr insertDesc []

/-- The inner printing loop of `Combiner.Report` (lines 295-303) over the
keys recorded for one value: returns the `(ip, value)` pairs printed, the
updated `num_printed`, and the `keepgoing` flag. -/
def printInner : List Key → Int → Nat → List (Key × Int) × Nat × Bool
  | [], _, num => ([], num, true)
  | ip :: rest, k, num =>
    if num < 10 then
      let r := printInner rest k (num + 1)
      ((ip, k) :: r.1, r.2)
    else ([], num, false)

/-- The outer printing loop of `Combiner.Report` (lines 291-308) over the
descending-sorted `keys` slice; `swapped[k]` is `nil` for a value with no
recorded key, so the inner loop prints nothing for it. -/
def printLoop (swapped : List (Int × List Key)) : List Int → Nat → List (Key × Int)
  | [], _ => []
  | k :: rest, num =>
    let ips := (swappedGet swapped k).getD []
    let r := printInner ips k num
    if r.2.2 then r.1 ++ printLoop swapped rest r.2.1 else r.1

/-- `Combiner.Report` (lines 269-309), abstracted to the ordered list of
`(ip, value)` pairs it prints; the printed percentage is the pure function
`float64(value) / float64 (tbytesOf tt) * 100` of a pair's value, so the
pair list determines the report text. -/
def Report (tt : GoMap) : List (Key × Int) :=
  printLoop (buildSwapped tt) (sortDesc (buildKeys tt)) 0

/-- An input file as `main`/`Reader.GetReader` see it: a plain file that
may fail to open, or a `.gz` file read through the decompressor's stdout
pipe.  For the gz case, `pipeOk` models whether `c.StdoutPipe()` succeeds
and `startOk` whether the decompression command starts and runs
successfully.  Modelled from the spec: the decompression collaborator is
external ("whose stdout/output stream SourceStream treats as its byte
source"); a command that fails to start, or dies, delivers end-of-stream on
its pipe with no read error. -/
inductive InputFile where
  | plain (openOk : Bool) (reads : List ReadResult)
  | gz (pipeOk : Bool) (startOk : Bool) (reads : List ReadResult)
deriving DecidableEq, Repr

/-- `Reader.GetReader` (lines 76-95): a failed `os.Open` is
`Error.Fatalln`, a failed `c.StdoutPipe()` is `panic`; the error returned
by `c.Start()` (line 83) is discarded and the command is never waited on,
so a failed decompressor leaves only a silently empty stream. -/
def GetReader : InputFile → Except Unit (List ReadResult)
  | InputFile.plain openOk reads =>
    if openOk then Except.ok reads else Except.error ()
  | InputFile.gz pipeOk startOk reads =>
    if pipeOk then Except.ok (if startOk then reads else []) else Except.error ()

/-- The whole pipeline of `main` on one input file, stage results passed
along in sequence (stage concurrency only interleaves independent batches,
which every stage below is insensitive to): `Except.error` is process
death with no report (`Error.Fatalln` or an unrecovered goroutine panic),
`Except.ok` is normal completion with the printed report pairs. -/
def pipeline (file : InputFile) (bsize : Nat) : Except Unit (List (Key × Int)) :=
  match GetReader file with
  | Except.error e => Except.error e
  | Except.ok events =>
    match readerCore bsize events [] with
    | Except.error e => Except.error e
    | Except.ok chunks =>
      match chunks.mapM Parse with
      | none => Except.error ()
      | some batches =>
        Except.ok (Report (combinerRun (batches.map Reduce)))

/-- State of one pooled stage (`Parser.Start`, lines 175-189, and
`Reducer.Start`, lines 222-236, are the same protocol): `consumed` chunks
taken from the input queue out of the `n` that will arrive before it
closes, `working` spawned tasks that have not yet sent their result,
`sent` tasks that have sent but not yet released their limiter slot,
`limiter` tokens in the semaphore channel, `produced` results sent to the
output queue, `polling` whether the range loop has ended, and `outClosed`
whether the output queue has been closed. -/
structure StageState where
  consumed : Nat
  working : Nat
  sent : Nat
  limiter : Nat
  produced : Nat
  polling : Bool
  outClosed : Bool
deriving DecidableEq, Repr

/-- The start state of a pooled stage. -/
def stageInit : StageState :=
  ⟨0, 0, 0, 0, 0, false, false⟩

/-- Interleaved small-step semantics of one pooled stage with pool size `P`
and `n` input items, under sequentially consistent scheduling.  `take` is
the range-loop body (`limiter <- 1` blocks on a full semaphore, then
`go task(...)`); `send` and `release` are the two halves of a task's tail
(`outq <- result` then `<-limiter`); `finish` is the range loop observing
the closed, drained input queue; `closeOut` is the polling loop observing
`len(limiter) == 0` and closing the output queue (the sleep branch does not
change state). -/
inductive StageStep (P n : Nat) : StageState → StageState → Prop
  | take (s : StageState) :
      s.consumed < n → s.limiter < P → s.polling = false →
      StageStep P n s
        { s with consumed := s.consumed + 1, working := s.working + 1,
                 limiter := s.limiter + 1 }
  | send (s : StageState) :
      0 < s.working →
      StageStep P n s
        { s with working := s.working - 1, sent := s.sent + 1,
                 produced := s.produced + 1 }
  | release (s : StageState) :
      0 < s.sent →
      StageStep P n s
        { s with sent := s.sent - 1, limiter := s.limiter - 1 }
  | finish (s : StageState) :
      s.consumed = n → s.polling = false →
      StageStep P n s { s with polling := true }
  | closeOut (s : StageState) :
      s.polling = true → s.limiter = 0 → s.outClosed = false →
      StageStep P n s { s with outClosed := true }

/-- Reachability of a stage state from the start state. -/
def StageReach (P n : Nat) : StageState → Prop :=
  Relation.ReflTransGen (StageStep P n) stageInit

example : ([] : List Nat).splitOn 10 = [[]] := by decide

example : goAtoi [49, 48, 48] = 100 := by decide

example : goAtoi [45] = 0 := by decide

example : Report [([97], 5), ([98], 5)] = [([97], 5), ([97], 5)] := by decide

example :
    Reduce [⟨localNet ++ [49], [98], 150⟩, ⟨localNet ++ [49], [98], 50⟩]
      = [(localNet ++ [49], 200)] := by decide

example : pipeline (InputFile.gz true false [ReadResult.fail]) 4 = Except.ok [] := rfl

example : pipeline (InputFile.plain false []) 4 = Except.error () := rfl

example : Parse [97, 9, 98] = none := by decide

theorem chop_nil (bsize : Nat) : chop bsize [] = [] := rfl

theorem chop_zero (l : List Nat) : chop 0 l = [] := by
  cases l <;> rfl

theorem chopGo_irrel (bsize : Nat) :
    ∀ fuel₁ fuel₂ l, l.length ≤ fuel₁ → l.length ≤ fuel₂ →
      chopGo bsize fuel₁ l = chopGo bsize fuel₂ l := by
  intro fuel₁
  induction fuel₁ with
  | zero =>
    intro fuel₂ l h₁ _
    have hnil : l = [] := List.eq_nil_of_length_eq_zero (Nat.le_zero.mp h₁)
    subst hnil
    cases fuel₂ <;> rfl
  | succ f ih =>
    intro fuel₂ l h₁ h₂
    cases l with
    | nil => cases fuel₂ <;> rfl
    | cons a as =>
      cases fuel₂ with
      | zero => simp at h₂
      | succ f₂ =>
        simp only [chopGo]
        by_cases hb : bsize = 0
        · simp [hb]
        · simp only [if_neg hb]
          have hbs : 1 ≤ bsize := Nat.one_le_iff_ne_zero.mpr hb
          simp only [List.length_cons] at h₁ h₂
          have hlen₁ : (List.drop bsize (a :: as)).length ≤ f := by
            simp only [List.length_drop, List.length_cons]; omega
          have hlen₂ : (List.drop bsize (a :: as)).length ≤ f₂ := by
            simp only [List.length_drop, List.length_cons]; omega
          exact congrArg _ (ih f₂ _ hlen₁ hlen₂)

theorem chop_cons (bsize : Nat) (l : List Nat) (hb : bsize ≠ 0) (hl : l ≠ []) :
    chop bsize l = l.take bsize :: chop bsize (l.drop bsize) := by
  cases l with
  | nil => exact absurd rfl hl
  | cons a as =>
    show chopGo bsize (as.length + 1) (a :: as) = _
    simp only [chopGo, if_neg hb]
    have hbs : 1 ≤ bsize := Nat.one_le_iff_ne_zero.mpr hb
    have hlen : (List.drop bsize (a :: as)).length ≤ as.length := by
      simp only [List.length_drop, List.length_cons]; omega
    exact congrArg _ (chopGo_irrel bsize as.length _ _ hlen (Nat.le_refl _))

theorem scanBack_some (buffer : List Nat) :
    ∀ j i, scanBack buffer j = some i →
      1 ≤ i ∧ i ≤ j ∧ buffer.getD i 0 = 10 := by
  intro j
  induction j with
  | zero => intro i h; simp [scanBack] at h
  | succ j ih =>
    intro i h
    by_cases hnl : buffer.getD (j + 1) 0 = 10
    · simp only [scanBack, if_pos hnl, Option.some.injEq] at h
      subst h
      exact ⟨Nat.succ_le_succ (Nat.zero_le j), Nat.le_refl _, hnl⟩
    · simp only [scanBack, if_neg hnl] at h
      obtain ⟨h₁, h₂, h₃⟩ := ih i h
      exact ⟨h₁, Nat.le_succ_of_le h₂, h₃⟩

theorem isPfx_append_left {x l₁ l₂ : List Nat} (h : l₁ <+: l₂) :
    x ++ l₁ <+: x ++ l₂ := by
  obtain ⟨t, ht⟩ := h
  exact ⟨t, by rw [List.append_assoc, ht]⟩

theorem isPfx_take (l : List Nat) (n : Nat) : l.take n <+: l :=
  ⟨l.drop n, List.take_append_drop n l⟩

theorem take_succ_getD (l : List Nat) (i : Nat) (h : i < l.length) :
    l.take (i + 1) = l.take i ++ [l.getD i 0] := by
  induction l generalizing i with
  | nil => simp at h
  | cons a as ih =>
    cases i with
    | zero => simp
    | succ i =>
      simp only [List.length_cons] at h
      simp only [List.take_succ_cons, List.getD_cons_succ, List.cons_append,
        List.cons.injEq, true_and]
      exact ih i (Nat.lt_of_succ_lt_succ h)

theorem readerCore_chop_isPfx (bsize : Nat) :
    ∀ N input, input.length ≤ N → ∀ leftovers out,
      readerCore bsize ((chop bsize input).map ReadResult.ok) leftovers = Except.ok out →
      (out.map (fun c => c ++ [10])).join <+: leftovers ++ input := by
  intro N
  induction N with
  | zero =>
    intro input hN leftovers out h
    have hnil : input = [] := List.eq_nil_of_length_eq_zero (Nat.le_zero.mp hN)
    subst hnil
    rw [chop_nil] at h
    simp only [List.map_nil, readerCore, Except.ok.injEq] at h
    subst h
    exact ⟨leftovers, by simp⟩
  | succ N ih =>
    intro input hN leftovers out h
    by_cases hi : input = []
    · subst hi
      rw [chop_nil] at h
      simp only [List.map_nil, readerCore, Except.ok.injEq] at h
      subst h
      exact ⟨leftovers, by simp⟩
    by_cases hb : bsize = 0
    · subst hb
      rw [chop_zero] at h
      simp only [List.map_nil, readerCore, Except.ok.injEq] at h
      subst h
      exact ⟨leftovers ++ input, by simp⟩
    have hbs : 1 ≤ bsize := Nat.one_le_iff_ne_zero.mpr hb
    have hpos : 0 < input.length := List.length_pos.mpr hi
    rw [chop_cons bsize input hb hi] at h
    simp only [List.map_cons, readerCore] at h
    have hcond : ¬ (min (List.take bsize input).length bsize = 0) := by
      rw [List.length_take]; omega
    rw [if_neg hcond] at h
    simp only [List.take_take, Nat.min_self, List.length_take] at h
    have hmm : min (min bsize input.length) bsize = min bsize input.length := by omega
    rw [hmm] at h
    set L := min bsize input.length with hLdef
    set b : List Nat := List.take bsize input ++ List.replicate (bsize - L) 0 with hbdef
    have hblen : b.length = bsize := by
      rw [hbdef, List.length_append, List.length_take, List.length_replicate]
      omega
    split at h
    next hscan =>
      by_cases hsmall : input.length < bsize
      · have hdrop : input.drop bsize = [] := by
          apply List.drop_eq_nil_of_le
          omega
        rw [hdrop, chop_nil] at h
        simp only [List.map_nil, readerCore, Except.ok.injEq] at h
        subst h
        exact ⟨leftovers ++ input, by simp⟩
      · have hge : bsize ≤ input.length := Nat.le_of_not_lt hsmall
        have hL : L = bsize := by omega
        have hbeq : b = List.take bsize input := by
          rw [hbdef, hL, Nat.sub_self, List.replicate_zero, List.append_nil]
        have hNd : (input.drop bsize).length ≤ N := by
          rw [List.length_drop]; omega
        have := ih (input.drop bsize) hNd (leftovers ++ b) out h
        rw [hbeq, List.append_assoc, List.take_append_drop] at this
        exact this
    next i hscan =>
      obtain ⟨hi1, hiL, hnl⟩ := scanBack_some b (L - 1) i hscan
      have hLpos : 1 ≤ L := by omega
      have hiltL : i < L := by omega
      have hilt : i < b.length := by omega
      have htake : b.take i ++ [10] = b.take (i + 1) := by
        rw [take_succ_getD b i hilt, hnl]
      split at h
      next e hrec => simp at h
      next out' hrec =>
        simp only [Except.ok.injEq] at h
        subst h
        simp only [List.map_cons, List.join_cons]
        by_cases hsmall : input.length < bsize
        · have hdrop : input.drop bsize = [] := by
            apply List.drop_eq_nil_of_le
            omega
          rw [hdrop, chop_nil] at hrec
          simp only [List.map_nil, readerCore, Except.ok.injEq] at hrec
          subst hrec
          simp only [List.map_nil, List.join_nil, List.append_nil]
          have hL : L = input.length := by omega
          have htk : List.take bsize input = input := List.take_of_length_le (by omega)
          have hbtake : b.take (i + 1) = input.take (i + 1) := by
            rw [hbdef, htk, List.take_append_eq_append_take]
            have : i + 1 - input.length = 0 := by omega
            rw [this, List.take_zero, List.append_nil]
          rw [List.append_assoc, htake, hbtake]
          exact isPfx_append_left (isPfx_take input (i + 1))
        · have hge : bsize ≤ input.length := Nat.le_of_not_lt hsmall
          have hL : L = bsize := by omega
          have hbeq : b = List.take bsize input := by
            rw [hbdef, hL, Nat.sub_self, List.replicate_zero, List.append_nil]
          have hNd : (input.drop bsize).length ≤ N := by
            rw [List.length_drop]; omega
          have hih := ih (input.drop bsize) hNd (b.drop (i + 1)) out' hrec
          have hsplit : b.take (i + 1) ++ (b.drop (i + 1) ++ input.drop bsize) = input := by
            rw [← List.append_assoc, List.take_append_drop, hbeq, List.take_append_drop]
          have step1 : b.take (i + 1) ++ (out'.map (fun c => c ++ [10])).join <+:
              b.take (i + 1) ++ (b.drop (i + 1) ++ input.drop bsize) :=
            isPfx_append_left hih
          rw [hsplit] at step1
          have goal1 : leftovers ++ (b.take (i + 1) ++ (out'.map (fun c => c ++ [10])).join) <+:
              leftovers ++ input := isPfx_append_left step1
          rw [show leftovers ++ b.take i ++ [10] ++ (out'.map (fun c => c ++ [10])).join
              = leftovers ++ (b.take (i + 1) ++ (out'.map (fun c => c ++ [10])).join) by
            rw [← htake]; simp [List.append_assoc]]
          exact goal1

/-- Soundness (but not completeness) of the Reader's emissions: with the
byte source delivered in full fixed-size blocks, whatever the Reader does
emit consists of source bytes with only line terminators stripped —
re-terminating each emitted chunk with a newline and concatenating
reproduces a prefix of the source byte-for-byte, so an emitted chunk is
never altered or interleaved with foreign bytes.  The second conjunct
shows the carry working on the line "abcd" split by block size 3 at
"abc"/"d".  This says nothing about which lines are emitted; the
completeness half of that story fails, see the eval theorem below. -/
theorem reader_emission_sound (bsize : Nat) (input : List Nat) :
    ((readerRun bsize input).map (fun c => c ++ [10])).join <+: input ∧
    readerRun 3 [97, 98, 99, 100, 10, 101, 10] = [[97, 98, 99, 100]] := by
  refine ⟨?_, by decide⟩
  unfold readerRun
  cases h : readerCore bsize ((chop bsize input).map ReadResult.ok) [] with
  | error e =>
    exact ⟨input, by simp [Except.toOption]⟩
  | ok out =>
    have hp := readerCore_chop_isPfx bsize input.length input (Nat.le_refl _) [] out h
    simpa [Except.toOption] using hp

/-- C4: the code violates the claim — the carried leftover buffer is not
enough to reconstruct a line split at every position.  When the split puts
the line terminator exactly at index 0 of a read block, the backward scan
takes the `end_it == 0` append-everything branch before ever testing
`buffer[0]`, so the newline is never found and the spanning line is
dropped outright: the newline-terminated line "abcdef" read with block
size 3 (body exactly filling blocks "abc" and "def", terminator opening
the third block) emits nothing at all, while the same line with block
size 4 (blocks "abcd" and "ef\n", terminator at index 2) is reconstructed
unbroken — so reconstruction fails for a split at exactly the boundary,
the very case the claim includes. -/
theorem reader_boundary_split_dropped_eval :
    readerRun 3 [97, 98, 99, 100, 101, 102, 10] = [] ∧
    readerRun 4 [97, 98, 99, 100, 101, 102, 10] = [[97, 98, 99, 100, 101, 102]] := by
  decide

/-- C3: the code violates the claim — an input whose final line lacks a
trailing newline (here "abc" with block size 3, exactly one full block) is
never emitted: `Reader.Start` breaks out of the read loop on the zero-length
read and closes the output queue without flushing `leftovers`, so the final
partial line is dropped. -/
theorem reader_final_line_dropped_eval : readerRun 3 [97, 98, 99] = [] := by decide

/-- The tab-separated fields of one well-formed 19-field log line: origin
(field 2) is "a", responder (field 4) is "b", the byte-count fields 16 and
18 are "100" and "50", every other field is "z". -/
def sampleFields : List (List Nat) :=
  [[122], [122], [97], [122], [98]] ++ List.replicate 11 [122] ++
    [[49, 48, 48], [122], [53, 48]]

/-- One chunk holding exactly the single line `sampleFields`, tab-joined. -/
def sampleChunk : List Nat := List.intercalate [9] sampleFields

example : sampleFields.length = 19 := by decide

/-- C2: the code violates the claim — `Parser.Parse` allocates
`data_slice := make([]conn, len(lines))`, a slice already holding one
zero-value record per line, and then appends the parsed records after
them.  On a chunk holding exactly one well-formed non-skipped line the
emitted RecordBatch has two records (a spurious zero record plus the
parsed one), not one, so batch record counts exceed the non-skipped line
count. -/
theorem parse_batch_padded_eval :
    Parse sampleChunk = some [⟨[], [], 0⟩, ⟨[97], [98], 150⟩] ∧
    (Parse sampleChunk).map List.length = some 2 ∧
    (sampleChunk.splitOn 10).length = 1 := by decide

/-- C5: the code violates the claim — a line with fewer than 19
tab-separated fields (here "a\tb") is not skipped: `Parser.Parse` indexes
`data[2]`, `data[4]`, `data[16]`, `data[18]` without a field-count check,
so the parse goroutine panics (modelled as `none`) instead of skipping the
malformed line. -/
theorem parse_short_line_panic_eval :
    Parse [97, 9, 98] = none ∧ Parse [35, 120, 10, 10, 97] = none := by decide

theorem mapGet_not_mem (m : GoMap) (k : Key) (h : k ∉ m.map Prod.fst) :
    mapGet m k = none := by
  induction m with
  | nil => rfl
  | cons kv rest ih =>
    obtain ⟨a, b⟩ := kv
    simp only [List.map_cons, List.mem_cons, not_or] at h
    have hne : ¬ a = k := fun hak => h.1 hak.symm
    simp only [mapGet, if_neg hne]
    exact ih h.2

theorem mapGetD_mapIncr (m : GoMap) (k k' : Key) (v : Int) :
    mapGetD (mapIncr m k v) k' = mapGetD m k' + (if k = k' then v else 0) := by
  induction m with
  | nil =>
    by_cases h : k = k' <;> simp [mapIncr, mapGetD, mapGet, h]
  | cons kv rest ih =>
    obtain ⟨a, b⟩ := kv
    by_cases hak : a = k
    · subst hak
      by_cases hk' : a = k' <;> simp [mapIncr, mapGetD, mapGet, hk']
    · have hstep : mapIncr ((a, b) :: rest) k v = (a, b) :: mapIncr rest k v := by
        simp [mapIncr, hak]
      rw [hstep]
      by_cases hk' : a = k'
      · have hkk : ¬ k = k' := fun he => hak (hk'.trans he.symm)
        simp [mapGetD, mapGet, hk', hkk]
      · simp only [mapGetD, mapGet, if_neg hk']
        exact ih

theorem mapGetD_cons_self (a : Key) (b : Int) (rest : GoMap) :
    mapGetD ((a, b) :: rest) a = b := by
  simp [mapGetD, mapGet]

theorem mapGetD_cons_ne (a k : Key) (b : Int) (rest : GoMap) (h : ¬ a = k) :
    mapGetD ((a, b) :: rest) k = mapGetD rest k := by
  simp [mapGetD, mapGet, h]

theorem mapGetD_combinerMerge (p : GoMap) :
    ∀ f : GoMap, ∀ k : Key, (p.map Prod.fst).Nodup →
      mapGetD (combinerMerge f p) k = mapGetD f k + mapGetD p k := by
  induction p with
  | nil =>
    intro f k _
    simp [combinerMerge, mapGetD, mapGet]
  | cons kv rest ih =>
    intro f k hnd
    obtain ⟨a, b⟩ := kv
    simp only [List.map_cons, List.nodup_cons] at hnd
    show mapGetD (combinerMerge (mapIncr f a b) rest) k = _
    rw [ih (mapIncr f a b) k hnd.2, mapGetD_mapIncr]
    by_cases hak : a = k
    · subst hak
      have hz : mapGetD rest a = 0 := by
        unfold mapGetD
        rw [mapGet_not_mem rest a hnd.1]
        rfl
      rw [if_pos rfl, hz, mapGetD_cons_self]
      ring
    · rw [if_neg hak, mapGetD_cons_ne a k b rest hak]
      ring

theorem mapGetD_combinerRun_aux (ps : List GoMap) :
    ∀ init : GoMap, ∀ k : Key, (∀ p ∈ ps, (p.map Prod.fst).Nodup) →
      mapGetD (ps.foldl combinerMerge init) k =
        mapGetD init k + (ps.map (fun p => mapGetD p k)).sum := by
  induction ps with
  | nil => intro init k _; simp
  | cons p rest ih =>
    intro init k hnd
    simp only [List.foldl_cons, List.map_cons, List.sum_cons]
    rw [ih (combinerMerge init p) k (fun q hq => hnd q (List.mem_cons_of_mem p hq)),
        mapGetD_combinerMerge p init k (hnd p (List.mem_cons_self p rest))]
    ring

/-- C1: for every multiset of PartialTallies consumed by the Combiner (any
list of Go maps, i.e. association lists with distinct keys), the resulting
GlobalTally value of each key is exactly the sum of that key's values over
the PartialTallies that contain it (an absent key reads as 0 and
contributes nothing) — no double counting, no dropped batch — and any
permutation of the arrival order produces the same value at every key. -/
theorem combinerRun_exact_sum (ps ps' : List GoMap) (k : Key)
    (hnd : ∀ p ∈ ps, (p.map Prod.fst).Nodup) (hperm : ps.Perm ps') :
    mapGetD (combinerRun ps) k = (ps.map (fun p => mapGetD p k)).sum ∧
    mapGetD (combinerRun ps') k = mapGetD (combinerRun ps) k := by
  have hnd' : ∀ p ∈ ps', (p.map Prod.fst).Nodup := fun p hp =>
    hnd p (hperm.mem_iff.mpr hp)
  have h1 : mapGetD (combinerRun ps) k = (ps.map (fun p => mapGetD p k)).sum := by
    have := mapGetD_combinerRun_aux ps [] k hnd
    simpa [combinerRun, mapGetD, mapGet] using this
  have h2 : mapGetD (combinerRun ps') k = (ps'.map (fun p => mapGetD p k)).sum := by
    have := mapGetD_combinerRun_aux ps' [] k hnd'
    simpa [combinerRun, mapGetD, mapGet] using this
  refine ⟨h1, ?_⟩
  rw [h1, h2]
  exact List.Perm.sum_eq ((hperm.symm).map (fun p => mapGetD p k))

/-- Witness for C1 at two concrete PartialTallies and their swapped arrival
order: key "a" totals 1 + 2 = 3 either way. -/
theorem combinerRun_exact_sum_inst :
    mapGetD (combinerRun [[([97], 1)], [([97], 2), ([98], 3)]]) [97] =
      (([[([97], 1)], [([97], 2), ([98], 3)]] : List GoMap).map
        (fun p => mapGetD p [97])).sum ∧
    mapGetD (combinerRun [[([97], 2), ([98], 3)], [([97], 1)]]) [97] =
      mapGetD (combinerRun [[([97], 1)], [([97], 2), ([98], 3)]]) [97] :=
  combinerRun_exact_sum [[([97], 1)], [([97], 2), ([98], 3)]]
    [[([97], 2), ([98], 3)], [([97], 1)]] [97] (by decide) (by decide)

/-- The contribution one record makes to key `k` in `Reducer.Reduce`. -/
def reduceShare (c : conn) (k : Key) : Int :=
  (if c.orig = k ∧ matchesLocalNet c.orig = true then c.bytes else 0) +
    (if c.resp = k ∧ matchesLocalNet c.resp = true then c.bytes else 0)

theorem mapGetD_reduceStep (tt : GoMap) (c : conn) (k : Key) :
    mapGetD (reduceStep tt c) k = mapGetD tt k + reduceShare c k := by
  by_cases ho : matchesLocalNet c.orig = true <;>
    by_cases hr : matchesLocalNet c.resp = true <;>
      simp [reduceStep, reduceShare, ho, hr, mapGetD_mapIncr] <;> ring

theorem mapGetD_reduce_aux (ds : List conn) :
    ∀ tt : GoMap, ∀ k : Key,
      mapGetD (ds.foldl reduceStep tt) k =
        mapGetD tt k + (ds.map (fun c => reduceShare c k)).sum := by
  induction ds with
  | nil => intro tt k; simp
  | cons c rest ih =>
    intro tt k
    simp only [List.foldl_cons, List.map_cons, List.sum_cons]
    rw [ih (reduceStep tt c) k, mapGetD_reduceStep]
    ring

theorem keys_mapIncr (P : Key → Prop) (m : GoMap) (k : Key) (v : Int)
    (hm : ∀ kv ∈ m, P kv.1) (hk : P k) :
    ∀ kv ∈ mapIncr m k v, P kv.1 := by
  induction m with
  | nil =>
    intro kv hkv
    simp only [mapIncr, List.mem_singleton] at hkv
    subst hkv
    exact hk
  | cons ab rest ih =>
    obtain ⟨a, b⟩ := ab
    intro kv hkv
    by_cases hak : a = k
    · simp only [mapIncr, if_pos hak, List.mem_cons] at hkv
      rcases hkv with h | h
      · subst h; exact hm (a, b) (List.mem_cons_self _ _)
      · exact hm kv (List.mem_cons_of_mem _ h)
    · simp only [mapIncr, if_neg hak, List.mem_cons] at hkv
      rcases hkv with h | h
      · subst h; exact hm (a, b) (List.mem_cons_self _ _)
      · exact ih (fun kv' hkv' => hm kv' (List.mem_cons_of_mem _ hkv')) kv h

theorem keys_reduceStep (tt : GoMap) (c : conn)
    (hm : ∀ kv ∈ tt, matchesLocalNet kv.1 = true) :
    ∀ kv ∈ reduceStep tt c, matchesLocalNet kv.1 = true := by
  show ∀ kv ∈ (if matchesLocalNet c.resp
      then mapIncr (if matchesLocalNet c.orig then mapIncr tt c.orig c.bytes else tt)
        c.resp c.bytes
      else if matchesLocalNet c.orig then mapIncr tt c.orig c.bytes else tt),
    matchesLocalNet kv.1 = true
  by_cases ho : matchesLocalNet c.orig = true
  · by_cases hr : matchesLocalNet c.resp = true
    · rw [if_pos ho, if_pos hr]
      exact keys_mapIncr (fun s => matchesLocalNet s = true) _ _ _
        (keys_mapIncr (fun s => matchesLocalNet s = true) _ _ _ hm ho) hr
    · rw [if_pos ho, if_neg hr]
      exact keys_mapIncr (fun s => matchesLocalNet s = true) _ _ _ hm ho
  · by_cases hr : matchesLocalNet c.resp = true
    · rw [if_neg ho, if_pos hr]
      exact keys_mapIncr (fun s => matchesLocalNet s = true) _ _ _ hm hr
    · rw [if_neg ho, if_neg hr]
      exact hm

theorem keys_reduce_aux (ds : List conn) :
    ∀ tt : GoMap, (∀ kv ∈ tt, matchesLocalNet kv.1 = true) →
      ∀ kv ∈ ds.foldl reduceStep tt, matchesLocalNet kv.1 = true := by
  induction ds with
  | nil => intro tt htt; exact htt
  | cons c rest ih =>
    intro tt htt
    exact ih (reduceStep tt c) (keys_reduceStep tt c htt)

theorem keys_reduce (ds : List conn) :
    ∀ kv ∈ Reduce ds, matchesLocalNet kv.1 = true :=
  keys_reduce_aux ds [] (by intro kv hkv; simp at hkv)

theorem mapGet_none_of_keys (m : GoMap) (k : Key)
    (hm : ∀ kv ∈ m, matchesLocalNet kv.1 = true)
    (hk : matchesLocalNet k = false) : mapGet m k = none := by
  apply mapGet_not_mem
  intro hmem
  obtain ⟨kv, hkv, hfst⟩ := List.mem_map.mp hmem
  have := hm kv hkv
  rw [hfst, hk] at this
  exact Bool.false_ne_true this

/-- C7: for every record batch the Reducer aggregates, every key of the
resulting PartialTally holds exactly the sum of the full `bytes` of the
records whose origin matches the filter under that key plus those whose
responder matches under that key (a record whose origin and responder both
match contributes its full byte count once under each), and an address that
does not match the filter has no entry at all. -/
theorem reduce_tally_exact (ds : List conn) (k : Key) :
    mapGetD (Reduce ds) k = (ds.map (fun c => reduceShare c k)).sum ∧
    (matchesLocalNet k = false → mapGet (Reduce ds) k = none) := by
  constructor
  · have := mapGetD_reduce_aux ds [] k
    simpa [Reduce, mapGetD, mapGet] using this
  · intro hk
    exact mapGet_none_of_keys (Reduce ds) k (keys_reduce ds) hk

/-- Witness for C7 on the Scenario-B-shaped batch: two records with the
same matching origin "128.252.1" and byte counts 150 and 50 and a
non-matching responder "b" yield tally value 200 for the origin and no
entry for "b". -/
theorem reduce_tally_exact_inst :
    (mapGetD (Reduce [⟨localNet ++ [49], [98], 150⟩, ⟨localNet ++ [49], [98], 50⟩])
        (localNet ++ [49]) =
      (([⟨localNet ++ [49], [98], 150⟩, ⟨localNet ++ [49], [98], 50⟩] : List conn).map
        (fun c => reduceShare c (localNet ++ [49]))).sum ∧
      (matchesLocalNet [98] = false →
        mapGet (Reduce [⟨localNet ++ [49], [98], 150⟩, ⟨localNet ++ [49], [98], 50⟩])
          [98] = none)) ∧
    mapGetD (Reduce [⟨localNet ++ [49], [98], 150⟩, ⟨localNet ++ [49], [98], 50⟩])
        (localNet ++ [49]) = 200 ∧
    mapGet (Reduce [⟨localNet ++ [49], [98], 150⟩, ⟨localNet ++ [49], [98], 50⟩])
        [98] = none := by
  refine ⟨?_, by decide, ?_⟩
  · exact ⟨(reduce_tally_exact _ _).1, (reduce_tally_exact _ _).2⟩
  · exact (reduce_tally_exact
      [⟨localNet ++ [49], [98], 150⟩, ⟨localNet ++ [49], [98], 50⟩] [98]).2 (by decide)

theorem keys_combinerMerge (P : Key → Prop) (p : GoMap) :
    ∀ f : GoMap, (∀ kv ∈ f, P kv.1) → (∀ kv ∈ p, P kv.1) →
      ∀ kv ∈ combinerMerge f p, P kv.1 := by
  induction p with
  | nil => intro f hf _; exact hf
  | cons ab rest ih =>
    intro f hf hp
    obtain ⟨a, b⟩ := ab
    show ∀ kv ∈ combinerMerge (mapIncr f a b) rest, P kv.1
    exact ih (mapIncr f a b)
      (keys_mapIncr P f a b hf (hp (a, b) (List.mem_cons_self _ _)))
      (fun kv hkv => hp kv (List.mem_cons_of_mem _ hkv))

theorem keys_combinerRun (P : Key → Prop) (ps : List GoMap)
    (hps : ∀ p ∈ ps, ∀ kv ∈ p, P kv.1) :
    ∀ kv ∈ combinerRun ps, P kv.1 := by
  suffices h : ∀ init : GoMap, (∀ kv ∈ init, P kv.1) →
      ∀ kv ∈ ps.foldl combinerMerge init, P kv.1 by
    exact h [] (by intro kv hkv; simp at hkv)
  induction ps with
  | nil => intro init hinit; exact hinit
  | cons p rest ih =>
    intro init hinit
    exact ih (fun q hq => hps q (List.mem_cons_of_mem _ hq)) (combinerMerge init p)
      (keys_combinerMerge P p init hinit (hps p (List.mem_cons_self _ _)))

theorem swappedGet_some_mem (sw : List (Int × List Key)) (v : Int) (l : List Key)
    (h : swappedGet sw v = some l) : (v, l) ∈ sw := by
  induction sw with
  | nil => simp [swappedGet] at h
  | cons e rest ih =>
    obtain ⟨v', l'⟩ := e
    by_cases hv : v' = v
    · subst hv
      simp only [swappedGet, if_pos rfl, Option.some.injEq] at h
      simp only [Option.some.injEq, if_true] at h
      have hl : l' = l := by simpa using h
      subst hl
      exact List.mem_cons_self _ _
    · simp only [swappedGet, if_neg hv] at h
      exact List.mem_cons_of_mem _ (ih h)

theorem keys_swappedInsert (P : Key → Prop) (sw : List (Int × List Key))
    (v : Int) (k : Key) (hsw : ∀ e ∈ sw, ∀ ip ∈ e.2, P ip) (hk : P k) :
    ∀ e ∈ swappedInsert sw v k, ∀ ip ∈ e.2, P ip := by
  unfold swappedInsert
  cases hget : swappedGet sw v with
  | some l => exact hsw
  | none =>
    intro e he ip hip
    rcases List.mem_append.mp he with h | h
    · exact hsw e h ip hip
    · simp only [List.mem_singleton] at h
      subst h
      simp only [List.mem_singleton] at hip
      subst hip
      exact hk

theorem keys_buildSwapped (P : Key → Prop) (tt : GoMap)
    (htt : ∀ kv ∈ tt, P kv.1) :
    ∀ e ∈ buildSwapped tt, ∀ ip ∈ e.2, P ip := by
  suffices h : ∀ sw : List (Int × List Key), (∀ e ∈ sw, ∀ ip ∈ e.2, P ip) →
      ∀ e ∈ tt.foldl (fun sw kv => swappedInsert sw kv.2 kv.1) sw, ∀ ip ∈ e.2, P ip by
    exact h [] (by intro e he; simp at he)
  induction tt with
  | nil => intro sw hsw; exact hsw
  | cons kv rest ih =>
    intro sw hsw
    exact ih (fun q hq => htt q (List.mem_cons_of_mem _ hq)) (swappedInsert sw kv.2 kv.1)
      (keys_swappedInsert P sw kv.2 kv.1 hsw (htt kv (List.mem_cons_self _ _)))

theorem printInner_mem (ips : List Key) (k : Int) :
    ∀ num : Nat, ∀ x ∈ (printInner ips k num).1, x.1 ∈ ips ∧ x.2 = k := by
  induction ips with
  | nil => intro num x hx; simp [printInner] at hx
  | cons ip rest ih =>
    intro num x hx
    by_cases hlt : num < 10
    · simp only [printInner, if_pos hlt, List.mem_cons] at hx
      rcases hx with h | h
      · subst h
        exact ⟨List.mem_cons_self _ _, rfl⟩
      · obtain ⟨h1, h2⟩ := ih (num + 1) x h
        exact ⟨List.mem_cons_of_mem _ h1, h2⟩
    · simp only [printInner, if_neg hlt] at hx
      simp at hx

theorem printLoop_mem (sw : List (Int × List Key)) :
    ∀ ks : List Int, ∀ num : Nat, ∀ x ∈ printLoop sw ks num,
      ∃ l, swappedGet sw x.2 = some l ∧ x.1 ∈ l := by
  intro ks
  induction ks with
  | nil => intro num x hx; simp [printLoop] at hx
  | cons k rest ih =>
    intro num x hx
    simp only [printLoop] at hx
    have hmem : x ∈ (printInner ((swappedGet sw k).getD []) k num).1 ∨
        x ∈ printLoop sw rest (printInner ((swappedGet sw k).getD []) k num).2.1 := by
      by_cases hkg : (printInner ((swappedGet sw k).getD []) k num).2.2 = true
      · rw [if_pos hkg] at hx
        rcases List.mem_append.mp hx with h | h
        · exact Or.inl h
        · exact Or.inr h
      · rw [if_neg hkg] at hx
        exact Or.inl hx
    rcases hmem with h | h
    · obtain ⟨h1, h2⟩ := printInner_mem ((swappedGet sw k).getD []) k num x h
      cases hget : swappedGet sw k with
      | none => rw [hget] at h1; simp at h1
      | some l =>
        rw [hget] at h1
        exact ⟨l, by rw [h2, hget], by simpa using h1⟩
    · exact ih _ x h

theorem keys_report (tt : GoMap) (P : Key → Prop) (htt : ∀ kv ∈ tt, P kv.1) :
    ∀ x ∈ Report tt, P x.1 := by
  intro x hx
  obtain ⟨l, hget, hmem⟩ :=
    printLoop_mem (buildSwapped tt) (sortDesc (buildKeys tt)) 0 x hx
  have hlm : (x.2, l) ∈ buildSwapped tt := swappedGet_some_mem _ _ _ hget
  exact keys_buildSwapped P tt htt (x.2, l) hlm x.1 hmem

/-- C10: every key of every PartialTally `Reducer.Reduce` emits carries the
fixed literal "128.252." (the filter is the hardcoded constant `localNet`,
not a configuration value), and the property propagates: every key of the
GlobalTally built by the Combiner from such tallies, and every key the
report prints, also carries it — an address without the "128.252." lead
bytes is never tallied by any operation. -/
theorem tally_keys_have_local_net (batches : List (List conn)) :
    (∀ ds : List conn, ∀ kv ∈ Reduce ds, matchesLocalNet kv.1 = true) ∧
    (∀ kv ∈ combinerRun (batches.map Reduce), matchesLocalNet kv.1 = true) ∧
    (∀ x ∈ Report (combinerRun (batches.map Reduce)), matchesLocalNet x.1 = true) := by
  have hglobal : ∀ kv ∈ combinerRun (batches.map Reduce), matchesLocalNet kv.1 = true := by
    apply keys_combinerRun (fun s => matchesLocalNet s = true)
    intro p hp
    obtain ⟨ds, _, hds⟩ := List.mem_map.mp hp
    subst hds
    exact keys_reduce ds
  exact ⟨fun ds => keys_reduce ds, hglobal,
    keys_report _ (fun s => matchesLocalNet s = true) hglobal⟩

/-- Witness for C10 on one concrete batch: the single tallied key is
"128.252.1", and it carries the "128.252." lead bytes in the PartialTally,
in the GlobalTally, and in the printed report. -/
theorem tally_keys_have_local_net_inst :
    matchesLocalNet (localNet ++ [49]) = true ∧
    matchesLocalNet (localNet ++ [49]) = true ∧
    matchesLocalNet (localNet ++ [49]) = true :=
  ⟨(tally_keys_have_local_net [[⟨localNet ++ [49], [98], 150⟩]]).1
      [⟨localNet ++ [49], [98], 150⟩] (localNet ++ [49], 150) (by decide),
    (tally_keys_have_local_net [[⟨localNet ++ [49], [98], 150⟩]]).2.1
      (localNet ++ [49], 150) (by decide),
    (tally_keys_have_local_net [[⟨localNet ++ [49], [98], 150⟩]]).2.2
      (localNet ++ [49], 150) (by decide)⟩

/-- C9: the code violates the claim — on a GlobalTally with two distinct
keys "a" and "b" tied at total 5, the first loop of `Combiner.Report`
computes `list = append(list, k)` for the second tied key and discards the
result, so `swapped[5]` records only the first key; the sorted `keys`
slice holds 5 twice (after the `make([]int64, len(tt))` zero padding), and
the printing loop prints the recorded key once per occurrence: "a" is
printed twice at 50% each and "b" never, so a key appears more than once
and 2 distinct keys do not yield 2 distinct lines.  The second conjunct
shows the same duplication amid a non-tied key "c". -/
theorem report_duplicate_key_eval :
    Report [([97], 5), ([98], 5)] = [([97], 5), ([97], 5)] ∧
    Report [([97], 5), ([98], 5), ([99], 2)] =
      [([97], 5), ([97], 5), ([99], 2)] := by decide

/-- C8: the code violates the decompression arm of the claim — an
unreadable plain input file and a mid-stream non-EOF read error both
terminate with a failure signal and no report (first three conjuncts:
`Error.Fatalln` on open failure and on read failure, `panic` on a pipe
failure), but a failed decompression command is not detected: the error of
`c.Start()` is discarded and the command never waited on, so the dead pipe
reads as a silent end-of-stream and the pipeline completes successfully,
emitting a (here empty) report instead of failing. -/
theorem fatal_handling_eval :
    pipeline (InputFile.plain false []) 4 = Except.error () ∧
    pipeline (InputFile.plain true [ReadResult.ok [97, 10, 98], ReadResult.fail]) 2 =
      Except.error () ∧
    pipeline (InputFile.gz false true []) 4 = Except.error () ∧
    pipeline (InputFile.gz true false [ReadResult.fail]) 4 = Except.ok [] :=
  ⟨rfl, rfl, rfl, rfl⟩

/-- The inductive invariant of the stage protocol: the limiter holds
exactly one token per task that has not yet released its slot, every
consumed chunk is either produced or has its task still in flight, the
range loop ends only at end of input, and a closed output queue implies
the polling loop observed an empty limiter. -/
def StageInv (n : Nat) (s : StageState) : Prop :=
  s.limiter = s.working + s.sent ∧
  s.produced + s.working = s.consumed ∧
  s.consumed ≤ n ∧
  (s.polling = true → s.consumed = n) ∧
  (s.outClosed = true → s.polling = true ∧ s.limiter = 0)

theorem stageInv_init (n : Nat) : StageInv n stageInit := by
  refine ⟨rfl, rfl, Nat.zero_le n, ?_, ?_⟩
  · intro h; exact absurd h (by simp [stageInit])
  · intro h; exact absurd h (by simp [stageInit])

theorem stageInv_step (P n : Nat) (s s' : StageState)
    (hstep : StageStep P n s s') (hinv : StageInv n s) : StageInv n s' := by
  obtain ⟨h1, h2, h3, h4, h5⟩ := hinv
  cases hstep with
  | take hc hl hp =>
    refine ⟨by simp; omega, by simp; omega, by simp; omega, ?_, ?_⟩
    · intro hpp
      simp only at hpp
      rw [hp] at hpp
      exact absurd hpp (by simp)
    · intro hoc
      simp only at hoc
      have := (h5 hoc).1
      rw [hp] at this
      exact absurd this (by simp)
  | send hw =>
    refine ⟨by simp; omega, by simp; omega, by simpa using h3, ?_, ?_⟩
    · intro hpp; simpa using h4 (by simpa using hpp)
    · intro hoc
      obtain ⟨hp, hl⟩ := h5 (by simpa using hoc)
      omega
  | release hs =>
    refine ⟨by simp; omega, by simp; omega, by simpa using h3, ?_, ?_⟩
    · intro hpp; simpa using h4 (by simpa using hpp)
    · intro hoc
      obtain ⟨hp, hl⟩ := h5 (by simpa using hoc)
      omega
  | finish hc hp =>
    refine ⟨by simpa using h1, by simpa using h2, by simpa using h3, ?_, ?_⟩
    · intro _; simpa using hc
    · intro hoc
      obtain ⟨hpp, hl⟩ := h5 (by simpa using hoc)
      exact ⟨by simp, by simpa using hl⟩
  | closeOut hp hl hoc =>
    exact ⟨by simpa using h1, by simpa using h2, by simpa using h3,
      fun _ => by simpa using h4 hp, fun _ => ⟨by simpa using hp, by simpa using hl⟩⟩

theorem stageInv_reach (P n : Nat) (s : StageState) (h : StageReach P n s) :
    StageInv n s := by
  induction h with
  | refl => exact stageInv_init n
  | tail hab hbc ih => exact stageInv_step P n _ _ hbc ih

/-- C6: in the interleaved (sequentially consistent) semantics of the
pooled stages (`Parser.Start` and `Reducer.Start` run the same protocol),
whenever the stage has closed its output queue, every task it spawned has
both sent its result to the output queue and released its limiter slot
(no task in `working` or `sent` state), the input queue was closed and
drained (`consumed = n`), and all `n` results were emitted before the
close, so no batch or partial tally is lost; the close transition is
enabled only once, from the polling state with an empty limiter, and no
transition leaves the closed state's polling flag, so the queue is closed
exactly once. -/
theorem stage_close_safe (P n : Nat) (s : StageState)
    (hreach : StageReach P n s) (hclosed : s.outClosed = true) :
    s.working = 0 ∧ s.sent = 0 ∧ s.produced = n ∧ s.consumed = n ∧
      s.polling = true := by
  obtain ⟨h1, h2, h3, h4, h5⟩ := stageInv_reach P n s hreach
  obtain ⟨hp, hl⟩ := h5 hclosed
  have hc := h4 hp
  exact ⟨by omega, by omega, by omega, hc, hp⟩

/-- Witness for C6: with pool size 1 and zero inputs, the state reached by
the `finish` then `closeOut` transitions has a closed output queue, and
the theorem reports it fully drained. -/
theorem stage_close_safe_inst :
    (⟨0, 0, 0, 0, 0, true, true⟩ : StageState).working = 0 ∧
    (⟨0, 0, 0, 0, 0, true, true⟩ : StageState).sent = 0 ∧
    (⟨0, 0, 0, 0, 0, true, true⟩ : StageState).produced = 0 ∧
    (⟨0, 0, 0, 0, 0, true, true⟩ : StageState).consumed = 0 ∧
    (⟨0, 0, 0, 0, 0, true, true⟩ : StageState).polling = true :=
  stage_close_safe 1 0 ⟨0, 0, 0, 0, 0, true, true⟩
    (Relation.ReflTransGen.tail
      (Relation.ReflTransGen.single (StageStep.finish stageInit rfl rfl))
      (StageStep.closeOut ⟨0, 0, 0, 0, 0, true, false⟩ rfl rfl rfl))
    rfl

example : readerRun 3 [97, 98, 99, 100, 10, 101, 10] = [[97, 98, 99, 100]] := by decide

example : readerRun 3 [97, 98, 99] = [] := by decide
